import Mathlib

/-!
Shallow embedding of the tslinquery combinator core.

Sources embedded:
- src/src/QueryableBase.ts (facade terminal operations and chain operations)
- src/unnamed/part_000 (TakeIterable / TakeArrayIterable)
- src/src/Iterables/AppendPredendIterable.ts (AppendPrependIterable / AppendPrependArrayIterable)
- src/src/Iterables/IterableGenerator.ts (IterableGenerator)

JavaScript semantics that the embedding keeps explicit:
- truthiness tests such as `if (value)` are modelled by an explicit
  `truthy : T -> Bool` parameter; an accumulator of TypeScript type
  `T | undefined` is modelled as `Option T`, where `none` (undefined) is
  falsy and `some v` is as truthy as `v`;
- `T | undefined` results are modelled as `Option T`;
- a thrown construction-time error is modelled as `Except String`.
-/

namespace TsLinq

/-- Modelled from the spec: the three-valued comparison result of Compare.ts
(the file is not under src/; spec sections 3 and 6 describe it: a comparator
returns one of Less, Equal, Greater). -/
inductive Ordering where
  | Less
  | Equal
  | Greater
deriving DecidableEq, Repr

/-- Modelled from the spec: the signed value carried by an Ordering, used by
the sort family as a JavaScript sort comparator result
(`compare(x, y).value` in QueryableBase.ts). -/
def Ordering.value : Ordering → Int
  | .Less => -1
  | .Equal => 0
  | .Greater => 1

/-- Modelled from the spec: the natural-ordering comparator `compare` of
Compare.ts (not under src/), the default comparator of min/max/sort
(spec section 6: when omitted, natural ordering is used). -/
def compare (x y : Int) : Ordering :=
  if x < y then .Less else if y < x then .Greater else .Equal

/-- Truthiness of a JavaScript number modelled on Int: 0 is falsy. -/
def intTruthy (x : Int) : Bool := x != 0

/-- Truthiness of a `T | undefined` accumulator: undefined is falsy,
a present value is as truthy as the value. -/
def optTruthy {T : Type} (truthy : T → Bool) : Option T → Bool
  | none => false
  | some v => truthy v

/-- QueryableBase.ts `min` (lines 433-450): single loop keeping an
accumulator `value`; the guard is the raw truthiness test `if (value)`,
so a falsy accumulator is overwritten by the next element without any
comparison. -/
def jsMin {T : Type} (truthy : T → Bool) (cmp : T → T → Ordering)
    (l : List T) : Option T :=
  l.foldl
    (fun value e =>
      match value with
      | some v =>
        if truthy v then
          if cmp e v = Ordering.Less then some e else some v
        else some e
      | none => some e)
    none

/-- QueryableBase.ts `max` (lines 452-469): same loop as `min` with the
comparison result tested against Greater. -/
def jsMax {T : Type} (truthy : T → Bool) (cmp : T → T → Ordering)
    (l : List T) : Option T :=
  l.foldl
    (fun value e =>
      match value with
      | some v =>
        if truthy v then
          if cmp e v = Ordering.Greater then some e else some v
        else some e
      | none => some e)
    none

/-- QueryableBase.ts `reduce` (lines 339-355): the first pulled value seeds
the accumulator; the fold over the remaining elements only runs when that
seed passes the truthiness test `if (result)`, otherwise the seed itself is
returned unchanged. -/
def jsReduce {T : Type} (truthy : T → Bool) (reducer : T → T → T)
    (l : List T) : Option T :=
  match l with
  | [] => none
  | x :: xs => if truthy x then some (xs.foldl reducer x) else some x

/-- QueryableBase.ts `fold` (lines 357-370): returns the seed when
`isEmpty()` holds, otherwise folds every element into the seed. -/
def jsFold {T R : Type} (initialValue : R) (combine : R → T → R)
    (l : List T) : R :=
  if l.isEmpty then initialValue else l.foldl combine initialValue

/-- Loop of QueryableBase.ts `single` without predicate (lines 711-718):
`if (!result) { result = e } else { return undefined }` where the test is
truthiness of the accumulator. -/
def jsSingleAux {T : Type} (truthy : T → Bool) :
    Option T → List T → Option T
  | result, [] => result
  | result, e :: rest =>
    if optTruthy truthy result then none else jsSingleAux truthy (some e) rest

/-- QueryableBase.ts `single()` (lines 696-722, no-predicate branch). -/
def jsSingle {T : Type} (truthy : T → Bool) (l : List T) : Option T :=
  jsSingleAux truthy none l

/-- QueryableBase.ts `single(predicate)` (lines 701-710): elements failing
the predicate are skipped, matching elements feed the same truthy-guarded
accumulator as the no-predicate branch. -/
def jsSingleP {T : Type} (truthy : T → Bool) (predicate : T → Bool) :
    Option T → List T → Option T
  | result, [] => result
  | result, e :: rest =>
    if predicate e then
      if optTruthy truthy result then none
      else jsSingleP truthy predicate (some e) rest
    else jsSingleP truthy predicate result rest

/-- QueryableBase.ts `single(predicate)` entry point: the accumulator
starts undefined. -/
def jsSinglePred {T : Type} (truthy : T → Bool) (predicate : T → Bool)
    (l : List T) : Option T :=
  jsSingleP truthy predicate none l

/-- Loop of QueryableBase.ts `indexOf` (lines 561-570): returns the index of
the first element strictly equal to `value`, and the running index (the
element count) when no element matches. -/
def jsIndexOfGo {T : Type} [DecidableEq T] (value : T) :
    Nat → List T → Nat
  | index, [] => index
  | index, e :: rest =>
    if e = value then index else jsIndexOfGo value (index + 1) rest

/-- QueryableBase.ts `indexOf` (lines 556-571): undefined on empty input,
otherwise the loop above starting at index 0. -/
def jsIndexOf {T : Type} [DecidableEq T] (l : List T) (value : T) :
    Option Nat :=
  if l.isEmpty then none else some (jsIndexOfGo value 0 l)

/-- Loop of QueryableBase.ts `findIndex` (lines 654-663): the index is
incremented unconditionally after a failed predicate test. -/
def jsFindIndexGo {T : Type} (predicate : T → Bool) :
    Nat → List T → Nat
  | index, [] => index
  | index, e :: rest =>
    if predicate e then index else jsFindIndexGo predicate (index + 1) rest

/-- QueryableBase.ts `findIndex` (lines 649-664): undefined on empty input,
otherwise the loop above starting at index 0. -/
def jsFindIndex {T : Type} (predicate : T → Bool) (l : List T) :
    Option Nat :=
  if l.isEmpty then none else some (jsFindIndexGo predicate 0 l)

/-- QueryableBase.ts `count()` slow path (lines 855-868): pulls from a fresh
cursor, adding one per produced element. The sized fast path does not apply
to the stages embedded here (TakeIterable stores `count` as a number field,
not a method, so `getSizedIterableCount` rejects it). -/
def jsCount {T : Type} : List T → Nat
  | [] => 0
  | _ :: xs => jsCount xs + 1

/-!
Cursor protocol machinery.

The combinator classes in src/ extend the (missing from src/) base class
IterableIterator. Modelled from the spec: per spec sections 3 and 4.1-4.2,
such an object is at once a Sequence (an immutable recipe: its readonly
constructor arguments) and a Cursor (its mutable traversal state), and a
request for a new cursor — `[Symbol.iterator]()` — returns `this.clone()`,
rebuilding the stage from its readonly fields only; `IterableGenerator`
implements exactly that shape explicitly (IterableGenerator.ts lines 30-32).

`Seq` is the immutable recipe: the constructor arguments of each stage in
src/. `Cur` is the cursor: the recipe it was built from plus the mutable
fields of the class. `step` is one `getNext()`/`next()` call; `run` pulls
until done, which the protocol makes permanent.
-/

/-- The immutable recipes of the stages under src/: a backing array
(IterableArrayQuery source), an IterableGenerator (length, generator
function, optional seed), a TakeIterable, and an AppendPrependIterable
(upstream, item, append flag). -/
inductive Seq (T : Type) where
  | arr : List T → Seq T
  | gen : Nat → (Nat → Option T → T) → Option T → Seq T
  | take : Seq T → Nat → Seq T
  | appendPrepend : Seq T → T → Bool → Seq T

/-- Cursor states. Each combinator cursor stores the upstream Sequence (its
readonly `source` field), a live upstream cursor (its readonly `iterator`
field, obtained at construction), and its own mutable fields:
`index` for take, `hasItem` for appendPrepend, `index`/`prev` for the
generator. An array cursor stores the array plus the remaining suffix. -/
inductive Cur (T : Type) where
  | arr : List T → List T → Cur T
  | gen : Nat → (Nat → Option T → T) → Option T → Nat → Option T → Cur T
  | take : Seq T → Cur T → Nat → Nat → Cur T
  | appendPrepend : Seq T → Cur T → T → Bool → Bool → Cur T

/-- Constructing a cursor for a Sequence: each constructor stores its
arguments and obtains a fresh upstream cursor via
`iterable[Symbol.iterator]()` (TakeIterable constructor line 16,
AppendPrependIterable constructor line 13); the generator starts at
`index = 0` with `prev = seed` (IterableGenerator constructor lines 24-27);
take starts at `index = 0`; appendPrepend starts with `hasItem = true`. -/
def Seq.init {T : Type} : Seq T → Cur T
  | .arr l => .arr l l
  | .gen len f seed => .gen len f seed 0 seed
  | .take s n => .take s (Seq.init s) n 0
  | .appendPrepend s item app => .appendPrepend s (Seq.init s) item app true

/-- One cursor advancement, `none` meaning the done sentinel.

- array: the host array iterator yields the next element;
- gen: IterableGenerator.next (lines 34-43);
- take: TakeIterable.getNext (part_000 lines 25-32) — done exactly when
  `index === count`, otherwise the index is incremented and the upstream
  result (value or done) is passed through;
- appendPrepend: AppendPrependIterable.getNext (lines 22-42) — in append
  mode the upstream is pulled first and the item is emitted once at
  upstream exhaustion while `hasItem`; in prepend mode the item is emitted
  first, then the upstream is passed through. -/
def Cur.step {T : Type} : Cur T → Option (T × Cur T)
  | .arr src rem =>
    match rem with
    | [] => none
    | x :: xs => some (x, .arr src xs)
  | .gen len f seed i prev =>
    if i < len then
      some (f i prev, .gen len f seed (i + 1) (some (f i prev)))
    else none
  | .take s it n i =>
    if i = n then none
    else
      match Cur.step it with
      | none => none
      | some (v, it2) => some (v, .take s it2 n (i + 1))
  | .appendPrepend s it item app h =>
    if app then
      match Cur.step it with
      | none =>
        if h then some (item, .appendPrepend s it item app false) else none
      | some (v, it2) => some (v, .appendPrepend s it2 item app h)
    else
      if h then some (item, .appendPrepend s it item app false)
      else
        match Cur.step it with
        | none => none
        | some (v, it2) => some (v, .appendPrepend s it2 item app false)

/-- Termination measure: an upper bound on the number of values a cursor can
still produce. -/
def Cur.sz {T : Type} : Cur T → Nat
  | .arr _ rem => rem.length
  | .gen len _ _ i _ => len - i
  | .take _ it n i => Cur.sz it + (n - i)
  | .appendPrepend _ it _ _ h => Cur.sz it + (if h then 1 else 0)

theorem Cur.step_lt {T : Type} :
    ∀ (c : Cur T) (v : T) (c' : Cur T),
      Cur.step c = some (v, c') → Cur.sz c' < Cur.sz c := by
  intro c
  induction c with
  | arr src rem =>
    intro v c' h
    cases rem with
    | nil => simp [Cur.step] at h
    | cons x xs =>
      simp only [Cur.step, Option.some.injEq, Prod.mk.injEq] at h
      obtain ⟨rfl, rfl⟩ := h
      simp [Cur.sz]
  | gen len f seed i prev =>
    intro v c' h
    simp only [Cur.step] at h
    split at h
    · simp only [Option.some.injEq, Prod.mk.injEq] at h
      obtain ⟨rfl, rfl⟩ := h
      simp only [Cur.sz]
      omega
    · exact absurd h (by simp)
  | take s it n i ih =>
    intro v c' h
    simp only [Cur.step] at h
    split at h
    · exact absurd h (by simp)
    · cases hstep : Cur.step it with
      | none => simp only [hstep] at h; exact absurd h (by simp)
      | some p =>
        obtain ⟨w, it2⟩ := p
        simp only [hstep, Option.some.injEq, Prod.mk.injEq] at h
        obtain ⟨rfl, rfl⟩ := h
        have := ih w it2 hstep
        simp only [Cur.sz]
        omega
  | appendPrepend s it item app hasItem ih =>
    intro v c' h
    simp only [Cur.step] at h
    split at h
    · cases hstep : Cur.step it with
      | none =>
        simp only [hstep] at h
        split at h
        · simp only [Option.some.injEq, Prod.mk.injEq] at h
          obtain ⟨rfl, rfl⟩ := h
          simp_all [Cur.sz]
        · exact absurd h (by simp)
      | some p =>
        obtain ⟨w, it2⟩ := p
        simp only [hstep, Option.some.injEq, Prod.mk.injEq] at h
        obtain ⟨rfl, rfl⟩ := h
        have := ih w it2 hstep
        simp only [Cur.sz]
        omega
    · split at h
      · simp only [Option.some.injEq, Prod.mk.injEq] at h
        obtain ⟨rfl, rfl⟩ := h
        simp_all [Cur.sz]
      · cases hstep : Cur.step it with
        | none => simp only [hstep] at h; exact absurd h (by simp)
        | some p =>
          obtain ⟨w, it2⟩ := p
          simp only [hstep, Option.some.injEq, Prod.mk.injEq] at h
          obtain ⟨rfl, rfl⟩ := h
          have := ih w it2 hstep
          cases hasItem <;> simp_all [Cur.sz]

/-- Traverse a cursor to exhaustion, collecting the produced values: the
for-of / while-not-done loop every terminal operation runs. -/
def Cur.run {T : Type} (c : Cur T) : List T :=
  match h : Cur.step c with
  | none => []
  | some vc => vc.1 :: Cur.run vc.2
termination_by Cur.sz c
decreasing_by exact Cur.step_lt c vc.1 vc.2 h

/-- The element sequence of a Sequence: one full traversal from a fresh
cursor. -/
def Seq.iterate {T : Type} (s : Seq T) : List T :=
  Cur.run (Seq.init s)

/-- The immutable recipe a cursor carries: its readonly fields, the only
data `clone` reads. -/
def Cur.seqOf {T : Type} : Cur T → Seq T
  | .arr src _ => .arr src
  | .gen len f seed _ _ => .gen len f seed
  | .take s _ n _ => .take s n
  | .appendPrepend s _ item app _ => .appendPrepend s item app

/-- Obtaining a new cursor from a (possibly already advanced) cursor object:
`TakeIterable.clone` (part_000 lines 21-23) rebuilds from `this.source` and
`this.count`; `AppendPrependIterable.clone` (lines 18-20) from
`this.source`, `this.item`, `this.append`;
`IterableGenerator[Symbol.iterator]` (lines 30-32) from `this.length`,
`this.generator`, `this.seed`; an array handle restarts the array. The
mutable fields (`index`, `prev`, `hasItem`, the live upstream iterator) are
never consulted. -/
def Cur.clone {T : Type} : Cur T → Cur T
  | .arr src _ => .arr src src
  | .gen len f seed _ _ => .gen len f seed 0 seed
  | .take s _ n _ => .take s (Seq.init s) n 0
  | .appendPrepend s _ item app _ => .appendPrepend s (Seq.init s) item app true

/-- Advance a cursor `k` times (an exhausted cursor stays put: done is
permanent). -/
def Cur.stepN {T : Type} : Nat → Cur T → Cur T
  | 0, c => c
  | k + 1, c =>
    match Cur.step c with
    | none => c
    | some vc => Cur.stepN k vc.2

/-- TakeArrayIterable.getNext (part_000 lines 56-62): while the index is
below both the count and the array length, yield `source[index++]`. -/
def takeArrayRun {T : Type} (src : List T) (count : Nat) (index : Nat) :
    List T :=
  if h : index < count ∧ index < src.length then
    src.get ⟨index, h.2⟩ :: takeArrayRun src count (index + 1)
  else []
termination_by src.length - index
decreasing_by omega

/-- The full element sequence of a TakeArrayIterable
(constructor: `index = 0`, part_000 lines 41-50). -/
def takeArrayElems {T : Type} (src : List T) (count : Nat) : List T :=
  takeArrayRun src count 0

/-- AppendPrependArrayIterable.getNext (AppendPredendIterable.ts lines
65-87): done once the item is spent and the index reaches the array length;
in append mode the item is emitted exactly when the index first reaches the
length, otherwise `source[index++]`; in prepend mode the item is emitted
first. An out-of-range direct read (impossible from a freshly constructed
instance, whose index stays at most the length) is modelled as
exhaustion. -/
def apArrayRun {T : Type} (src : List T) (item : T) (app : Bool)
    (hasItem : Bool) (index : Nat) : List T :=
  if hasItem = false ∧ index = src.length then []
  else if app then
    if hasItem = true ∧ index = src.length then
      item :: apArrayRun src item app false index
    else if h : index < src.length then
      src.get ⟨index, h⟩ :: apArrayRun src item app hasItem (index + 1)
    else []
  else
    if hasItem = true then item :: apArrayRun src item app false index
    else if h : index < src.length then
      src.get ⟨index, h⟩ :: apArrayRun src item app false (index + 1)
    else []
termination_by (src.length + 1 - index) + (if hasItem then 1 else 0)
decreasing_by
  all_goals simp_all
  all_goals omega

/-- The full element sequence of an AppendPrependArrayIterable
(constructor: `hasItem = true`, `index = 0`, lines 53-59). -/
def apArrayElems {T : Type} (src : List T) (item : T) (app : Bool) :
    List T :=
  apArrayRun src item app true 0

/-!
Construction-time validation (for the invalid-argument claim). A TypeScript
constructor that can throw is modelled as an `Except String` returning the
object's readonly fields.
-/

/-- The readonly fields a successfully constructed TakeIterable stores. -/
structure TakeIterableObj (T : Type) where
  source : List T
  count : Nat

/-- TakeIterable constructor (part_000 lines 9-19): throws on a negative
count before touching the source; otherwise stores the arguments
unchanged. -/
def takeIterableCtor {T : Type} (iterable : List T) (count : Int) :
    Except String (TakeIterableObj T) :=
  if count < 0 then .error ("Invalid argument: " ++ toString count)
  else .ok ⟨iterable, count.toNat⟩

/-- IterableGenerator constructor (IterableGenerator.ts lines 15-28):
throws on a negative length (the message text says 0, the guard is
`length < 0`); otherwise stores length, generator and seed. -/
def iterableGeneratorCtor {T : Type} (length : Int)
    (generator : Nat → Option T → T) (seed : Option T) :
    Except String (Seq T) :=
  if length < 0 then .error "length cannot be 0"
  else .ok (.gen length.toNat generator seed)

/-- Modelled from the spec: the RangeIterable constructor is not under
src/; spec section 4.2 — an invalid (zero) step must fail fast, at
construction. -/
def rangeIterableCtor (start stop step : Int) :
    Except String (Int × Int × Int) :=
  if step = 0 then .error "step cannot be 0" else .ok (start, stop, step)

/-- Modelled from the spec: the ChunkIterable constructor is not under
src/; spec sections 7 and 8 — a non-positive chunk size fails immediately
at construction (`chunk(0)` fails at construction, never at traversal). -/
def chunkIterableCtor (chunkSize : Int) : Except String Nat :=
  if chunkSize ≤ 0 then .error "chunkSize cannot be negative or zero"
  else .ok chunkSize.toNat

/-!
Handles (for the immutability claim). A Handle is the public object a user
holds; reference identity is modelled by a tag `id`, and a chain call
receives the tag `fresh` that a new allocation would get (an allocator
never reuses a live tag, so `fresh ≠ h.id` for the receiver `h`). The
TypeScript chain methods assign no field of `this`, which the embedding
reflects by returning either a newly tagged handle or the receiver value
unchanged.
-/

/-- A Query handle: an identity tag and the element sequence of the wrapped
source. -/
structure Handle (T : Type) where
  id : Nat
  elems : List T
deriving DecidableEq

/-- QueryableBase.ts `map` (lines 36-39): always wraps `this` in a new
MapIterable inside a new IterableQuery. -/
def mapH {T R : Type} (h : Handle T) (transform : T → R) (fresh : Nat) :
    Handle R :=
  ⟨fresh, h.elems.map transform⟩

/-- QueryableBase.ts `filter` (lines 46-49): always returns a new
IterableQuery over a new FilterIterable. -/
def filterH {T : Type} (h : Handle T) (predicate : T → Bool)
    (fresh : Nat) : Handle T :=
  ⟨fresh, h.elems.filter predicate⟩

/-- QueryableBase.ts `take` (lines 61-64): always returns a new
IterableQuery over a new TakeIterable. -/
def takeH {T : Type} (h : Handle T) (n : Nat) (fresh : Nat) : Handle T :=
  ⟨fresh, h.elems.take n⟩

/-- QueryableBase.ts `defaultIfEmpty` (lines 307-316): wraps the default
values in a new handle when `this.isEmpty()`, and otherwise returns `this`
itself. -/
def defaultIfEmptyH {T : Type} (h : Handle T) (defaultValue : List T)
    (fresh : Nat) : Handle T :=
  if h.elems.isEmpty then ⟨fresh, defaultValue⟩ else h

/-!
The sort family. ECMAScript `Array.prototype.sort` is specified up to the
comparator: the result is sorted consistently with the comparator and the
sort is stable (equal-comparing elements keep their relative order). Any
stable sort is observationally identical under a consistent comparator;
the embedding uses stable insertion sort (`List.insertionSort` places each
element before the later elements it compares less-or-equal to). -/

/-- `array.sort(comparefn)` with a JavaScript comparator returning a signed
number: a stable sort putting `x` no later than `y` whenever
`comparefn(x, y) <= 0`. -/
def jsArraySort {T : Type} (comparefn : T → T → Int) (l : List T) :
    List T :=
  List.insertionSort (fun x y => comparefn x y ≤ 0) l

/-- Decimal digits of a number, most significant first, with enough fuel
to terminate structurally (a number never has more digits than its
successor). -/
def natDigitsAux : Nat → Nat → List Nat
  | 0, _ => []
  | fuel + 1, n =>
    if n < 10 then [n] else natDigitsAux fuel (n / 10) ++ [n % 10]

/-- The decimal-digit string of a number, as the list of its digits. -/
def natDigits (n : Nat) : List Nat :=
  natDigitsAux (n + 1) n

/-- The comparator `array.sort()` applies when none is supplied: ECMAScript
SortCompare converts both elements to strings and compares the strings
lexicographically by code unit. For numbers the string is the decimal
representation, embedded here as the digit list under the lexicographic
list order. -/
def jsDefaultCompareNat (x y : Nat) : Int :=
  if natDigits x < natDigits y then -1
  else if natDigits y < natDigits x then 1
  else 0

/-- QueryableBase.ts `sort()` without comparator (line 220) on numbers:
`array.sort()`, the string-conversion default order. -/
def jsSortDefaultNat (l : List Nat) : List Nat :=
  jsArraySort jsDefaultCompareNat l

/-- QueryableBase.ts `sort(compare)` (lines 213-218):
`array.sort((x, y) => compare(x, y).value)`. -/
def jsSort {T : Type} (cmp : T → T → Ordering) (l : List T) : List T :=
  jsArraySort (fun x y => (cmp x y).value) l

/-- QueryableBase.ts `sortBy(keySelector)` without comparator (lines
254-259): `array.sort((x, y) => compareNatural(keySelector(x),
keySelector(y))?.value ?? 0)`; the natural comparator on numbers never
returns undefined, so the `?? 0` fallback is the comparator value
itself. -/
def jsSortBy {T : Type} (keySelector : T → Int) (l : List T) : List T :=
  jsArraySort (fun x y => (compare (keySelector x) (keySelector y)).value) l

/-- A record of the stability test in the spec: a sort key and a payload
telling the two key-2 records apart. -/
structure KeyedRec where
  key : Int
  v : String
deriving DecidableEq

theorem jsCount_eq_length {T : Type} (l : List T) : jsCount l = l.length := by
  induction l with
  | nil => rfl
  | cons x xs ih => simp [jsCount, ih]

theorem Cur.run_none {T : Type} {c : Cur T} (h : Cur.step c = none) :
    Cur.run c = [] := by
  unfold Cur.run
  split <;> simp_all

theorem Cur.run_some {T : Type} {c : Cur T} {v : T} {c' : Cur T}
    (h : Cur.step c = some (v, c')) : Cur.run c = v :: Cur.run c' := by
  conv_lhs => unfold Cur.run
  split <;> simp_all

theorem Cur.step_none_of_sz {T : Type} {c : Cur T} (h : Cur.sz c = 0) :
    Cur.step c = none := by
  cases hstep : Cur.step c with
  | none => rfl
  | some vc =>
    obtain ⟨v, c'⟩ := vc
    have := Cur.step_lt c v c' hstep
    omega

theorem Cur.run_arr {T : Type} (src : List T) :
    ∀ rem, Cur.run (Cur.arr src rem) = rem := by
  intro rem
  induction rem with
  | nil => exact Cur.run_none (by simp [Cur.step])
  | cons x xs ih =>
    have hstep : Cur.step (Cur.arr src (x :: xs))
        = some (x, Cur.arr src xs) := by
      simp [Cur.step]
    rw [Cur.run_some hstep, ih]

theorem Cur.run_take_aux {T : Type} :
    ∀ (m : Nat) (s : Seq T) (it : Cur T), Cur.sz it ≤ m →
      ∀ (n i : Nat), i ≤ n →
        Cur.run (Cur.take s it n i) = List.take (n - i) (Cur.run it) := by
  intro m
  induction m with
  | zero =>
    intro s it hsz n i _
    have hnone : Cur.step it = none := Cur.step_none_of_sz (by omega)
    have houter : Cur.step (Cur.take s it n i) = none := by
      simp only [Cur.step, hnone]
      split <;> rfl
    rw [Cur.run_none houter, Cur.run_none hnone]
    simp
  | succ m ih =>
    intro s it hsz n i hin
    by_cases hi : i = n
    · subst hi
      have houter : Cur.step (Cur.take s it i i) = none := by
        simp [Cur.step]
      rw [Cur.run_none houter]
      simp
    · cases hstep : Cur.step it with
      | none =>
        have houter : Cur.step (Cur.take s it n i) = none := by
          simp [Cur.step, hi, hstep]
        rw [Cur.run_none houter, Cur.run_none hstep]
        simp
      | some vc =>
        obtain ⟨v, it2⟩ := vc
        have houter :
            Cur.step (Cur.take s it n i)
              = some (v, Cur.take s it2 n (i + 1)) := by
          simp [Cur.step, hi, hstep]
        have hlt := Cur.step_lt it v it2 hstep
        rw [Cur.run_some houter, Cur.run_some hstep,
          ih s it2 (by omega) n (i + 1) (by omega)]
        have hsub : n - i = (n - (i + 1)) + 1 := by omega
        rw [hsub, List.take_succ_cons]

theorem Seq.iterate_take {T : Type} (s : Seq T) (n : Nat) :
    Seq.iterate (Seq.take s n) = List.take n (Seq.iterate s) := by
  have := Cur.run_take_aux (Cur.sz (Seq.init s)) s (Seq.init s) le_rfl n 0
    (Nat.zero_le n)
  simpa [Seq.iterate, Seq.init] using this

theorem Seq.iterate_arr {T : Type} (l : List T) :
    Seq.iterate (Seq.arr l) = l :=
  Cur.run_arr l l

theorem Cur.run_ap_false {T : Type} (s : Seq T) (item : T) (app : Bool) :
    ∀ (m : Nat) (it : Cur T), Cur.sz it ≤ m →
      Cur.run (Cur.appendPrepend s it item app false) = Cur.run it := by
  intro m
  induction m with
  | zero =>
    intro it hsz
    have hnone : Cur.step it = none := Cur.step_none_of_sz (by omega)
    have houter :
        Cur.step (Cur.appendPrepend s it item app false) = none := by
      cases app <;> simp [Cur.step, hnone]
    rw [Cur.run_none houter, Cur.run_none hnone]
  | succ m ih =>
    intro it hsz
    cases hstep : Cur.step it with
    | none =>
      have houter :
          Cur.step (Cur.appendPrepend s it item app false) = none := by
        cases app <;> simp [Cur.step, hstep]
      rw [Cur.run_none houter, Cur.run_none hstep]
    | some vc =>
      obtain ⟨v, it2⟩ := vc
      have houter :
          Cur.step (Cur.appendPrepend s it item app false)
            = some (v, Cur.appendPrepend s it2 item app false) := by
        cases app <;> simp [Cur.step, hstep]
      have hlt := Cur.step_lt it v it2 hstep
      rw [Cur.run_some houter, Cur.run_some hstep, ih it2 (by omega)]

theorem Cur.run_ap_true {T : Type} (s : Seq T) (item : T) (app : Bool) :
    ∀ (m : Nat) (it : Cur T), Cur.sz it ≤ m →
      Cur.run (Cur.appendPrepend s it item app true)
        = if app then Cur.run it ++ [item] else item :: Cur.run it := by
  intro m
  induction m with
  | zero =>
    intro it hsz
    have hnone : Cur.step it = none := Cur.step_none_of_sz (by omega)
    cases app with
    | true =>
      have houter :
          Cur.step (Cur.appendPrepend s it item true true)
            = some (item, Cur.appendPrepend s it item true false) := by
        simp [Cur.step, hnone]
      rw [Cur.run_some houter, Cur.run_ap_false s item true 0 it (by omega),
        Cur.run_none hnone]
      simp
    | false =>
      have houter :
          Cur.step (Cur.appendPrepend s it item false true)
            = some (item, Cur.appendPrepend s it item false false) := by
        simp [Cur.step]
      rw [Cur.run_some houter,
        Cur.run_ap_false s item false 0 it (by omega),
        Cur.run_none hnone]
      simp
  | succ m ih =>
    intro it hsz
    cases app with
    | true =>
      cases hstep : Cur.step it with
      | none =>
        have houter :
            Cur.step (Cur.appendPrepend s it item true true)
              = some (item, Cur.appendPrepend s it item true false) := by
          simp [Cur.step, hstep]
        rw [Cur.run_some houter,
          Cur.run_ap_false s item true (Cur.sz it) it le_rfl,
          Cur.run_none hstep]
        simp
      | some vc =>
        obtain ⟨v, it2⟩ := vc
        have houter :
            Cur.step (Cur.appendPrepend s it item true true)
              = some (v, Cur.appendPrepend s it2 item true true) := by
          simp [Cur.step, hstep]
        have hlt := Cur.step_lt it v it2 hstep
        rw [Cur.run_some houter, Cur.run_some hstep, ih it2 (by omega)]
        simp
    | false =>
      have houter :
          Cur.step (Cur.appendPrepend s it item false true)
            = some (item, Cur.appendPrepend s it item false false) := by
        simp [Cur.step]
      rw [Cur.run_some houter,
        Cur.run_ap_false s item false (Cur.sz it) it le_rfl]
      simp

theorem Seq.iterate_appendPrepend {T : Type} (s : Seq T) (item : T)
    (app : Bool) :
    Seq.iterate (Seq.appendPrepend s item app)
      = if app then Seq.iterate s ++ [item] else item :: Seq.iterate s := by
  have := Cur.run_ap_true s item app (Cur.sz (Seq.init s)) (Seq.init s)
    le_rfl
  simpa [Seq.iterate, Seq.init] using this

theorem Cur.seqOf_init {T : Type} (s : Seq T) :
    Cur.seqOf (Seq.init s) = s := by
  cases s <;> rfl

theorem Cur.clone_eq_init {T : Type} (c : Cur T) :
    Cur.clone c = Seq.init (Cur.seqOf c) := by
  cases c <;> rfl

theorem Cur.seqOf_step {T : Type} :
    ∀ (c : Cur T) (v : T) (c' : Cur T),
      Cur.step c = some (v, c') → Cur.seqOf c' = Cur.seqOf c := by
  intro c v c' h
  cases c with
  | arr src rem =>
    cases rem with
    | nil => simp [Cur.step] at h
    | cons x xs =>
      simp only [Cur.step, Option.some.injEq, Prod.mk.injEq] at h
      obtain ⟨rfl, rfl⟩ := h
      rfl
  | gen len f seed i prev =>
    simp only [Cur.step] at h
    split at h
    · simp only [Option.some.injEq, Prod.mk.injEq] at h
      obtain ⟨rfl, rfl⟩ := h
      rfl
    · exact absurd h (by simp)
  | take s it n i =>
    simp only [Cur.step] at h
    split at h
    · exact absurd h (by simp)
    · cases hstep : Cur.step it with
      | none => simp only [hstep] at h; exact absurd h (by simp)
      | some p =>
        obtain ⟨w, it2⟩ := p
        simp only [hstep, Option.some.injEq, Prod.mk.injEq] at h
        obtain ⟨rfl, rfl⟩ := h
        rfl
  | appendPrepend s it item app hasItem =>
    simp only [Cur.step] at h
    split at h
    · cases hstep : Cur.step it with
      | none =>
        simp only [hstep] at h
        split at h
        · simp only [Option.some.injEq, Prod.mk.injEq] at h
          obtain ⟨rfl, rfl⟩ := h
          rfl
        · exact absurd h (by simp)
      | some p =>
        obtain ⟨w, it2⟩ := p
        simp only [hstep, Option.some.injEq, Prod.mk.injEq] at h
        obtain ⟨rfl, rfl⟩ := h
        rfl
    · split at h
      · simp only [Option.some.injEq, Prod.mk.injEq] at h
        obtain ⟨rfl, rfl⟩ := h
        rfl
      · cases hstep : Cur.step it with
        | none => simp only [hstep] at h; exact absurd h (by simp)
        | some p =>
          obtain ⟨w, it2⟩ := p
          simp only [hstep, Option.some.injEq, Prod.mk.injEq] at h
          obtain ⟨rfl, rfl⟩ := h
          rfl

theorem Cur.seqOf_stepN {T : Type} :
    ∀ (k : Nat) (c : Cur T), Cur.seqOf (Cur.stepN k c) = Cur.seqOf c := by
  intro k
  induction k with
  | zero => intro c; rfl
  | succ k ih =>
    intro c
    simp only [Cur.stepN]
    cases hstep : Cur.step c with
    | none => rfl
    | some vc =>
      obtain ⟨v, c'⟩ := vc
      rw [ih c', Cur.seqOf_step c v c' hstep]

theorem takeArrayRun_eq {T : Type} :
    ∀ (m : Nat) (src : List T) (count i : Nat), src.length - i ≤ m →
      takeArrayRun src count i
        = List.take (count - i) (List.drop i src) := by
  intro m
  induction m with
  | zero =>
    intro src count i hm
    unfold takeArrayRun
    split
    · omega
    · rename_i hcond
      rcases Nat.lt_or_ge i count with hic | hic
      · rw [List.drop_eq_nil_of_le (by omega)]
        simp
      · have : count - i = 0 := by omega
        rw [this]
        simp
  | succ m ih =>
    intro src count i hm
    unfold takeArrayRun
    split
    · rename_i hcond
      rw [ih src count (i + 1) (by omega),
        List.drop_eq_getElem_cons hcond.2]
      have hsub : count - i = (count - (i + 1)) + 1 := by omega
      rw [hsub, List.take_succ_cons]
      rfl
    · rename_i hcond
      rcases Nat.lt_or_ge i count with hic | hic
      · rw [List.drop_eq_nil_of_le (by omega)]
        simp
      · have : count - i = 0 := by omega
        rw [this]
        simp

theorem takeArrayElems_eq {T : Type} (src : List T) (count : Nat) :
    takeArrayElems src count = List.take count src := by
  have := takeArrayRun_eq (src.length) src count 0 (by omega)
  simpa [takeArrayElems] using this

theorem apArrayRun_false {T : Type} :
    ∀ (m : Nat) (src : List T) (item : T) (app : Bool) (i : Nat),
      src.length - i ≤ m →
      apArrayRun src item app false i = List.drop i src := by
  intro m
  induction m with
  | zero =>
    intro src item app i hm
    unfold apArrayRun
    by_cases hi : i = src.length
    · simp [hi]
    · have hnlt : ¬ i < src.length := by omega
      rw [List.drop_eq_nil_of_le (by omega)]
      cases app <;> simp [hi, hnlt]
  | succ m ih =>
    intro src item app i hm
    unfold apArrayRun
    by_cases hi : i = src.length
    · simp [hi]
    · by_cases hlt : i < src.length
      · have hrec := ih src item app (i + 1) (by omega)
        rw [List.drop_eq_getElem_cons hlt]
        cases app <;> simp [hi, hlt, hrec]
      · rw [List.drop_eq_nil_of_le (by omega)]
        cases app <;> simp [hi, hlt]

theorem apArrayRun_true_append {T : Type} :
    ∀ (m : Nat) (src : List T) (item : T) (i : Nat),
      src.length - i ≤ m → i ≤ src.length →
      apArrayRun src item true true i = List.drop i src ++ [item] := by
  intro m
  induction m with
  | zero =>
    intro src item i hm hle
    have hi : i = src.length := by omega
    subst hi
    unfold apArrayRun
    simp [apArrayRun_false src.length src item true src.length (by omega),
      List.drop_length]
  | succ m ih =>
    intro src item i hm hle
    by_cases hi : i = src.length
    · subst hi
      unfold apArrayRun
      simp [apArrayRun_false src.length src item true src.length
        (by omega), List.drop_length]
    · have hlt : i < src.length := by omega
      have hunf :
          apArrayRun src item true true i
            = src.get ⟨i, hlt⟩ :: apArrayRun src item true true (i + 1) := by
        conv_lhs => unfold apArrayRun
        simp [hi, hlt]
      have hrec := ih src item (i + 1) (by omega) (by omega)
      rw [hunf, hrec, List.drop_eq_getElem_cons hlt]
      rfl

theorem apArrayElems_eq {T : Type} (src : List T) (item : T)
    (app : Bool) :
    apArrayElems src item app
      = if app then src ++ [item] else item :: src := by
  cases app with
  | true =>
    have := apArrayRun_true_append src.length src item 0 (by omega)
      (by omega)
    simpa [apArrayElems] using this
  | false =>
    unfold apArrayElems apArrayRun
    simp [apArrayRun_false src.length src item false 0 (by omega)]

theorem jsIndexOfGo_no_match {T : Type} [DecidableEq T] {v : T} :
    ∀ (l : List T), (∀ x ∈ l, x ≠ v) →
      ∀ i, jsIndexOfGo v i l = i + l.length := by
  intro l
  induction l with
  | nil => intro _ i; simp [jsIndexOfGo]
  | cons x xs ih =>
    intro hall i
    have hx : ¬ x = v := hall x (by simp)
    simp only [jsIndexOfGo, hx, if_false]
    rw [ih (fun y hy => hall y (by simp [hy])) (i + 1)]
    simp
    omega

theorem jsFindIndexGo_no_match {T : Type} {p : T → Bool} :
    ∀ (l : List T), (∀ x ∈ l, p x = false) →
      ∀ i, jsFindIndexGo p i l = i + l.length := by
  intro l
  induction l with
  | nil => intro _ i; simp [jsFindIndexGo]
  | cons x xs ih =>
    intro hall i
    have hx : p x = false := hall x (by simp)
    simp only [jsFindIndexGo, hx]
    rw [if_neg (by simp [hx]), ih (fun y hy => hall y (by simp [hy])) (i + 1)]
    simp
    omega

theorem jsDefaultCompareNat_le (x y : Nat) :
    jsDefaultCompareNat x y ≤ 0 ↔ natDigits x ≤ natDigits y := by
  unfold jsDefaultCompareNat
  by_cases h1 : natDigits x < natDigits y
  · simp only [h1, if_true]
    constructor
    · intro _; exact le_of_lt h1
    · intro _; omega
  · by_cases h2 : natDigits y < natDigits x
    · simp only [h1, h2, if_false, if_true]
      constructor
      · intro hc; omega
      · intro hc; exact absurd h2 (not_lt_of_le hc)
    · simp only [h1, h2, if_false]
      constructor
      · intro _; exact le_of_not_lt h2
      · intro _; omega

theorem compare_value_le (x y : Int) :
    (compare x y).value ≤ 0 ↔ x ≤ y := by
  unfold compare
  by_cases h1 : x < y
  · simp only [h1, if_true, Ordering.value]
    omega
  · by_cases h2 : y < x
    · simp only [h1, h2, if_false, if_true, Ordering.value]
      omega
    · simp only [h1, h2, if_false, Ordering.value]
      omega

theorem compare_equal_iff (x y : Int) :
    compare x y = Ordering.Equal ↔ x = y := by
  unfold compare
  by_cases h1 : x < y
  · simp [h1]
    omega
  · by_cases h2 : y < x
    · simp [h1, h2]
      omega
    · simp [h1, h2]
      omega

theorem orderedInsert_filter_neg {T : Type} (r : T → T → Prop)
    [DecidableRel r] (p : T → Bool) (x : T) (hpx : p x = false) :
    ∀ s : List T, (List.orderedInsert r x s).filter p = s.filter p := by
  intro s
  induction s with
  | nil => simp [List.orderedInsert, List.filter_cons, hpx]
  | cons y ys ih =>
    simp only [List.orderedInsert]
    split
    · simp [List.filter_cons, hpx]
    · simp only [List.filter_cons, ih]

theorem orderedInsert_filter_pos {T : Type} (r : T → T → Prop)
    [DecidableRel r] (p : T → Bool) (x : T) (hpx : p x = true)
    (hskip : ∀ y, p y = true → r x y) :
    ∀ s : List T, (List.orderedInsert r x s).filter p = x :: s.filter p := by
  intro s
  induction s with
  | nil => simp [List.orderedInsert, List.filter_cons, hpx]
  | cons y ys ih =>
    simp only [List.orderedInsert]
    split
    · simp [List.filter_cons, hpx]
    · rename_i hr
      have hpy : p y = false := by
        cases hy : p y
        · rfl
        · exact absurd (hskip y hy) hr
      simp [List.filter_cons, hpy, ih]

/-- Stability of the embedded sort, in general: for any comparator whose
Equal classes are consistent around a pivot `a`, sorting does not disturb
the subsequence of elements comparing Equal to `a` — equal-comparing
elements retain their relative input order. -/
theorem insertionSort_filter_eqclass {T : Type} (cmp : T → T → Ordering)
    (a : T)
    (hcons : ∀ x y, cmp x a = Ordering.Equal → cmp y a = Ordering.Equal →
      cmp x y = Ordering.Equal) :
    ∀ l : List T,
      (List.insertionSort (fun x y => (cmp x y).value ≤ 0) l).filter
          (fun x => decide (cmp x a = Ordering.Equal))
        = l.filter (fun x => decide (cmp x a = Ordering.Equal)) := by
  intro l
  induction l with
  | nil => rfl
  | cons b l ih =>
    simp only [List.insertionSort]
    by_cases hb : cmp b a = Ordering.Equal
    · have hpos := orderedInsert_filter_pos
        (fun x y => (cmp x y).value ≤ 0)
        (fun x => decide (cmp x a = Ordering.Equal)) b (by simp [hb])
        (fun y hy => by
          have hy' : cmp y a = Ordering.Equal := by simpa using hy
          have hby := hcons b y hb hy'
          simp [hby, Ordering.value])
      rw [hpos (List.insertionSort _ l), ih]
      simp [List.filter_cons, hb]
    · have hneg := orderedInsert_filter_neg
        (fun x y => (cmp x y).value ≤ 0)
        (fun x => decide (cmp x a = Ordering.Equal)) b (by simp [hb])
      rw [hneg (List.insertionSort _ l), ih]
      simp [List.filter_cons, hb]

/-!
The claims.
-/

/-- Claim C1. The claim states that min/max return undefined exactly on
empty input and otherwise a minimal/maximal element under the comparator
(natural ordering by default). The code is wrong: the truthiness guard
`if (value)` in QueryableBase.ts lines 440/458 discards a falsy
accumulator, so `min()` on the numbers `[0, 5]` returns `5` even though
the element `0` compares Less than `5` under the natural comparator. -/
theorem claim1_min_truthiness_bug :
    jsMin intTruthy compare [0, 5] = some 5
      ∧ compare 0 5 = Ordering.Less
      ∧ (0 : Int) ∈ [(0 : Int), 5] := by
  refine ⟨by decide, by decide, by decide⟩

/-- Claim C2. The claim states that reduce is the seedless left fold,
undefined only on empty input, and that fold returns the seed on empty
input. The fold half holds, but reduce is wrong: the truthiness guard
`if (result)` in QueryableBase.ts line 343 skips the whole fold loop when
the first element is falsy, so reduce of `[0, 1]` with addition returns
`0` while the left fold `f(0, 1)` is `1`. -/
theorem claim2_reduce_truthiness_bug :
    jsReduce intTruthy (· + ·) [0, 1] = some 0
      ∧ List.foldl (· + ·) (0 : Int) [1] = 1
      ∧ jsFold (0 : Int) (· + ·) ([] : List Int) = 0 := by
  refine ⟨by decide, by decide, by decide⟩

/-- Claim C3. The array-specialized twins are element-for-element
equivalent to the generic combinators over the same backing array:
AppendPrependArrayIterable produces the same sequence as
AppendPrependIterable, and TakeArrayIterable the same sequence as
TakeIterable, for every array, item, flag, and count. -/
theorem claim3_array_twins_equiv {T : Type} :
    (∀ (l : List T) (item : T) (app : Bool),
      apArrayElems l item app
        = Seq.iterate (Seq.appendPrepend (Seq.arr l) item app))
      ∧ (∀ (l : List T) (n : Nat),
        takeArrayElems l n = Seq.iterate (Seq.take (Seq.arr l) n)) := by
  constructor
  · intro l item app
    rw [apArrayElems_eq, Seq.iterate_appendPrepend, Seq.iterate_arr]
  · intro l n
    rw [takeArrayElems_eq, Seq.iterate_take, Seq.iterate_arr]

/-- Claim C4. Restartability: for every combinator chain over a
restartable source and any number of advancement steps already taken on a
cursor object, requesting a new cursor (clone, which reads only the
immutable recipe) and traversing to exhaustion yields exactly the sequence
of a fresh traversal — so two successive full traversals are identical. -/
theorem claim4_restart_identical {T : Type} (s : Seq T) (k : Nat) :
    Cur.run (Cur.clone (Cur.stepN k (Seq.init s)))
      = Cur.run (Cur.clone (Seq.init s)) := by
  rw [Cur.clone_eq_init, Cur.clone_eq_init, Cur.seqOf_stepN, Cur.seqOf_init]

/-- Claim C5. For every sequence in the embedded combinator universe and
every count n, `S.take(n).count()` equals `min(n, S.count())`. -/
theorem claim5_take_count {T : Type} (s : Seq T) (n : Nat) :
    jsCount (Seq.iterate (Seq.take s n))
      = min n (jsCount (Seq.iterate s)) := by
  rw [jsCount_eq_length, jsCount_eq_length, Seq.iterate_take,
    List.length_take]

/-- Claim C6. Invalid constructor arguments fail at construction time and
are never clamped: a negative take count throws (and a non-negative one is
stored unchanged), a negative generator length throws, a zero range step
throws, and a non-positive chunk size throws — all before any traversal,
since the constructors never read an element of the source. -/
theorem claim6_ctor_validation {T : Type} (l : List T)
    (n len step size : Int) (f : Nat → Option T → T) (seed : Option T) :
    (n < 0 →
      takeIterableCtor l n
        = Except.error ("Invalid argument: " ++ toString n))
      ∧ (0 ≤ n → ∃ o : TakeIterableObj T,
          takeIterableCtor l n = Except.ok o
            ∧ (o.count : Int) = n ∧ o.source = l)
      ∧ (len < 0 →
          iterableGeneratorCtor len f seed
            = Except.error "length cannot be 0")
      ∧ (step = 0 → ∀ a b : Int,
          rangeIterableCtor a b step = Except.error "step cannot be 0")
      ∧ (size ≤ 0 →
          chunkIterableCtor size
            = Except.error "chunkSize cannot be negative or zero") := by
  refine ⟨?_, ?_, ?_, ?_, ?_⟩
  · intro hn
    simp [takeIterableCtor, hn]
  · intro hn
    refine ⟨⟨l, n.toNat⟩, ?_, ?_, rfl⟩
    · simp [takeIterableCtor, not_lt.mpr hn]
    · exact Int.toNat_of_nonneg hn
  · intro hl
    simp [iterableGeneratorCtor, hl]
  · intro hs a b
    simp [rangeIterableCtor, hs]
  · intro hs
    simp [chunkIterableCtor, hs]

/-- Witness for claim C6 at concrete inputs: `take(-1)` and the generator
with length `-2` throw, `take(3)` stores count 3, `range` with step 0 and
`chunk(0)` throw. -/
theorem claim6_ctor_validation_witness :
    takeIterableCtor ([] : List Nat) (-1)
        = Except.error ("Invalid argument: " ++ toString (-1 : Int))
      ∧ (∃ o : TakeIterableObj Nat,
          takeIterableCtor ([] : List Nat) 3 = Except.ok o
            ∧ (o.count : Int) = 3 ∧ o.source = [])
      ∧ iterableGeneratorCtor (-2) (fun i _ => i) (none : Option Nat)
          = Except.error "length cannot be 0"
      ∧ rangeIterableCtor 1 5 0 = Except.error "step cannot be 0"
      ∧ chunkIterableCtor 0
          = Except.error "chunkSize cannot be negative or zero" := by
  have h := claim6_ctor_validation ([] : List Nat) (-1) (-2) 0 0
    (fun i _ => i) none
  have h3 := claim6_ctor_validation ([] : List Nat) 3 (-2) 0 0
    (fun i _ => i) none
  exact ⟨h.1 (by decide), h3.2.1 (by decide), h.2.2.1 (by decide),
    h.2.2.2.1 (by decide) 1 5, h.2.2.2.2 (by decide)⟩

/-- Claim C7, counterexample. The claim states that `sort()` with no
comparator orders by the element type's natural total order. The code
calls `array.sort()` with no comparator, which ECMAScript defines as
string-conversion order: on the numbers `[10, 2]` it returns `[10, 2]`
(since the string "10" precedes "2"), which is not sorted by the natural
numeric order. -/
theorem claim7_default_sort_counterexample :
    jsSortDefaultNat [10, 2] = [10, 2]
      ∧ ¬ List.Sorted (· ≤ ·) (jsSortDefaultNat [10, 2]) := by
  refine ⟨by decide, ?_⟩
  intro hs
  have h10 : (10 : Nat) ≤ 2 := by
    have : jsSortDefaultNat [10, 2] = [10, 2] := by decide
    rw [this] at hs
    exact List.rel_of_sorted_cons hs 2 (by simp)
  omega

/-- Claim C7, amended: `sort()` with no comparator orders by the
JavaScript default string-conversion order (a stable sorted permutation
under that order); with an explicit comparator it orders by the
three-valued Ordering the supplied comparator returns — for every
comparator whose induced not-Greater relation is total and transitive,
the result is sorted under that relation and a permutation of the input
(instantiated to the natural comparator as well); and the sort is stable
in general — for every comparator with consistent Equal classes and every
pivot, the subsequence of elements comparing Equal to the pivot is
unchanged — including the spec's concrete sortBy example. -/
theorem claim7_sort_amended :
    (∀ l : List Nat,
      List.Sorted (fun a b => natDigits a ≤ natDigits b)
          (jsSortDefaultNat l)
        ∧ (jsSortDefaultNat l).Perm l)
      ∧ (∀ (T : Type) (cmp : T → T → Ordering) (l : List T),
          (∀ a b, (cmp a b).value ≤ 0 ∨ (cmp b a).value ≤ 0) →
          (∀ a b c, (cmp a b).value ≤ 0 → (cmp b c).value ≤ 0 →
            (cmp a c).value ≤ 0) →
          List.Sorted (fun x y => (cmp x y).value ≤ 0) (jsSort cmp l)
            ∧ (jsSort cmp l).Perm l)
      ∧ (∀ l : List Int,
          List.Sorted (· ≤ ·) (jsSort compare l) ∧ (jsSort compare l).Perm l)
      ∧ (∀ (T : Type) (cmp : T → T → Ordering) (l : List T) (a : T),
          (∀ x y, cmp x a = Ordering.Equal → cmp y a = Ordering.Equal →
            cmp x y = Ordering.Equal) →
          (jsSort cmp l).filter (fun x => decide (cmp x a = Ordering.Equal))
            = l.filter (fun x => decide (cmp x a = Ordering.Equal)))
      ∧ jsSortBy KeyedRec.key
          [⟨2, "a"⟩, ⟨1, "b"⟩, ⟨2, "c"⟩]
          = [⟨1, "b"⟩, ⟨2, "a"⟩, ⟨2, "c"⟩] := by
  refine ⟨?_, ?_, ?_, ?_, by decide⟩
  · intro l
    haveI : IsTotal Nat (fun x y => jsDefaultCompareNat x y ≤ 0) :=
      ⟨fun a b => by
        simp only [jsDefaultCompareNat_le]
        exact le_total (natDigits a) (natDigits b)⟩
    haveI : IsTrans Nat (fun x y => jsDefaultCompareNat x y ≤ 0) :=
      ⟨fun a b c hab hbc => by
        simp only [jsDefaultCompareNat_le] at hab hbc ⊢
        exact le_trans hab hbc⟩
    constructor
    · show List.Sorted _
        (List.insertionSort (fun x y => jsDefaultCompareNat x y ≤ 0) l)
      exact (List.sorted_insertionSort _ l).imp
        (fun hab => (jsDefaultCompareNat_le _ _).mp hab)
    · show (List.insertionSort
        (fun x y => jsDefaultCompareNat x y ≤ 0) l).Perm l
      exact List.perm_insertionSort _ l
  · intro T cmp l htot htrans
    haveI : IsTotal T (fun x y => (cmp x y).value ≤ 0) := ⟨htot⟩
    haveI : IsTrans T (fun x y => (cmp x y).value ≤ 0) := ⟨htrans⟩
    constructor
    · show List.Sorted _
        (List.insertionSort (fun x y => (cmp x y).value ≤ 0) l)
      exact List.sorted_insertionSort _ l
    · show (List.insertionSort
        (fun x y => (cmp x y).value ≤ 0) l).Perm l
      exact List.perm_insertionSort _ l
  · intro l
    haveI : IsTotal Int (fun x y => (compare x y).value ≤ 0) :=
      ⟨fun a b => by
        simp only [compare_value_le]
        exact le_total a b⟩
    haveI : IsTrans Int (fun x y => (compare x y).value ≤ 0) :=
      ⟨fun a b c hab hbc => by
        simp only [compare_value_le] at hab hbc ⊢
        exact le_trans hab hbc⟩
    constructor
    · show List.Sorted _
        (List.insertionSort (fun x y => (compare x y).value ≤ 0) l)
      exact (List.sorted_insertionSort _ l).imp
        (fun hab => (compare_value_le _ _).mp hab)
    · show (List.insertionSort
        (fun x y => (compare x y).value ≤ 0) l).Perm l
      exact List.perm_insertionSort _ l
  · intro T cmp l a hcons
    show (List.insertionSort (fun x y => (cmp x y).value ≤ 0) l).filter _
      = _
    exact insertionSort_filter_eqclass cmp a hcons l

/-- Witness for the amended claim C7 at concrete non-natural comparators:
the reversed comparator on Int satisfies the totality/transitivity
hypotheses and yields a sorted permutation, and the equality-heavy
comparator by tens digit satisfies the consistency hypothesis, with the
two distinct Equal-comparing elements 15 and 12 keeping their relative
input order across the sort. -/
theorem claim7_sort_amended_witness :
    (List.Sorted (fun x y => (compare y x).value ≤ 0)
        (jsSort (fun p q => compare q p) ([0, 1, 2] : List Int))
      ∧ (jsSort (fun p q => compare q p) ([0, 1, 2] : List Int)).Perm
          [0, 1, 2])
    ∧ (jsSort (fun p q => compare (p / 10) (q / 10))
          ([15, 3, 12] : List Int)).filter
          (fun x => decide (compare (x / 10) ((11 : Int) / 10)
            = Ordering.Equal))
        = ([15, 3, 12] : List Int).filter
          (fun x => decide (compare (x / 10) ((11 : Int) / 10)
            = Ordering.Equal)) := by
  constructor
  · exact claim7_sort_amended.2.1 Int (fun p q => compare q p) [0, 1, 2]
      (fun a b => (le_total b a).imp (compare_value_le b a).mpr
        (compare_value_le a b).mpr)
      (fun a b c hab hbc => (compare_value_le c a).mpr
        (le_trans ((compare_value_le c b).mp hbc)
          ((compare_value_le b a).mp hab)))
  · exact claim7_sort_amended.2.2.2.1 Int
      (fun p q => compare (p / 10) (q / 10)) [15, 3, 12] 11
      (fun x y hx hy => by
        rw [compare_equal_iff] at hx hy ⊢
        exact hx.trans hy.symm)

/-- Claim C8. The claim states that single() returns undefined when the
sequence has zero or more than one element (and single(predicate) when
zero or more than one element matches). The code is wrong: the truthiness
guard `if (!result)` in QueryableBase.ts lines 704/713 treats a falsy
stored element as "nothing seen yet", so on the two-element sequence
`[0, 1]` both variants return `1` instead of undefined. -/
theorem claim8_single_truthiness_bug :
    jsSingle intTruthy [0, 1] = some 1
      ∧ jsSinglePred intTruthy (fun _ => true) [0, 1] = some 1 := by
  refine ⟨by decide, by decide⟩

/-- Claim C9, counterexample. The claim states that every chain method
returns a Handle distinct from the receiver, naming defaultIfEmpty. On a
non-empty receiver, `defaultIfEmpty` returns `this` itself
(QueryableBase.ts line 315): the result is the receiver, identity tag
included, not a distinct handle. -/
theorem claim9_defaultIfEmpty_counterexample :
    defaultIfEmptyH (⟨0, [1]⟩ : Handle Nat) [2] 1 = ⟨0, [1]⟩ := by
  rfl

/-- Claim C9, amended: chain operations never mutate the receiver, and
map, filter and take always return a freshly allocated handle (distinct
from the receiver); defaultIfEmpty returns a fresh handle when the
receiver is empty but returns the receiver itself, unchanged, when it is
non-empty. -/
theorem claim9_amended {T R : Type} (h : Handle T) (f : T → R)
    (p : T → Bool) (n : Nat) (d : List T) (fresh : Nat)
    (hfresh : fresh ≠ h.id) :
    (mapH h f fresh).id ≠ h.id
      ∧ (filterH h p fresh).id ≠ h.id
      ∧ (takeH h n fresh).id ≠ h.id
      ∧ (h.elems ≠ [] → defaultIfEmptyH h d fresh = h)
      ∧ (h.elems = [] → (defaultIfEmptyH h d fresh).id ≠ h.id) := by
  refine ⟨hfresh, hfresh, hfresh, ?_, ?_⟩
  · intro hne
    simp [defaultIfEmptyH, List.isEmpty_iff, hne]
  · intro hemp
    simp [defaultIfEmptyH, List.isEmpty_iff, hemp, hfresh]

/-- Witness for claim C9 at concrete inputs: on the non-empty handle with
tag 0 and elements `[1]`, map with fresh tag 1 yields a distinct handle
while defaultIfEmpty yields the receiver itself. -/
theorem claim9_amended_witness :
    (mapH (⟨0, [(1 : Int)]⟩ : Handle Int) (fun x => x) 1).id ≠ 0
      ∧ defaultIfEmptyH (⟨0, [(1 : Int)]⟩ : Handle Int) [5] 1
          = ⟨0, [(1 : Int)]⟩ := by
  have h := claim9_amended (⟨0, [(1 : Int)]⟩ : Handle Int) (fun x => x)
    (fun _ => true) 2 [5] 1 (by decide)
  exact ⟨h.1, h.2.2.2.1 (by decide)⟩

/-- Claim C10. On a non-empty sequence, indexOf of a value that occurs
nowhere returns the element count (undefined only on an empty sequence),
and findIndex with a predicate matching no element likewise returns the
element count. -/
theorem claim10_indexOf_miss {T : Type} [DecidableEq T] (l : List T)
    (v : T) (p : T → Bool) :
    (l ≠ [] → (∀ x ∈ l, x ≠ v) → jsIndexOf l v = some (jsCount l))
      ∧ (l ≠ [] → (∀ x ∈ l, p x = false) →
          jsFindIndex p l = some (jsCount l)) := by
  constructor
  · intro hne hall
    rw [jsIndexOf, if_neg (by simp [List.isEmpty_iff, hne]),
      jsIndexOfGo_no_match l hall 0, jsCount_eq_length]
    simp
  · intro hne hall
    rw [jsFindIndex, if_neg (by simp [List.isEmpty_iff, hne]),
      jsFindIndexGo_no_match l hall 0, jsCount_eq_length]
    simp

/-- Witness for claim C10 at concrete inputs: on `[1, 2]`, indexOf of the
absent value 5 and findIndex with an always-false predicate both return
the element count 2. -/
theorem claim10_indexOf_miss_witness :
    jsIndexOf [(1 : Int), 2] 5 = some (jsCount [(1 : Int), 2])
      ∧ jsFindIndex (fun _ => false) [(1 : Int), 2]
          = some (jsCount [(1 : Int), 2]) := by
  have h := claim10_indexOf_miss [(1 : Int), 2] 5 (fun _ => false)
  exact ⟨h.1 (by decide) (by decide), h.2 (by decide) (by decide)⟩

end TsLinq
